import Mathlib

/-!
Verification of the AES-128 FPGA benchmark driver (`aes-eval/eval_aes.py`).

The development shallowly embeds the protocol side of the script: bytes are
natural numbers (with explicit `< 256` hypotheses where value bounds matter),
byte strings are `List Nat`, the serial connection is a record carrying its
open flag and the bytes the device delivers for the pending read, and the
transport calls a round trip performs are recorded as an explicit action log.
Python functions that raise are embedded in `Except String`; functions that
return `None` components return `Option`s.
-/

namespace AESEval

/-- Class constant `FRAME_MARKER = bytes([0xFF, 0xFF])`. -/
def FRAME_MARKER : List Nat := [0xFF, 0xFF]

/-- Class constant `KEY_SIZE = 16`. -/
def KEY_SIZE : Nat := 16

/-- Class constant `BLOCK_SIZE = 16`. -/
def BLOCK_SIZE : Nat := 16

/-- Class constant `TX_FRAME_SIZE = KEY_SIZE + BLOCK_SIZE + 2` (34 bytes). -/
def TX_FRAME_SIZE : Nat := KEY_SIZE + BLOCK_SIZE + 2

/-- Class constant `RX_FRAME_SIZE = BLOCK_SIZE + 4` (20 bytes). -/
def RX_FRAME_SIZE : Nat := BLOCK_SIZE + 4

/-- NIST FIPS-197 Appendix B key `2b7e151628aed2a6abf7158809cf4f3c`. -/
def NIST_KEY : List Nat :=
  [0x2b, 0x7e, 0x15, 0x16, 0x28, 0xae, 0xd2, 0xa6,
   0xab, 0xf7, 0x15, 0x88, 0x09, 0xcf, 0x4f, 0x3c]

/-- NIST FIPS-197 Appendix B plaintext `3243f6a8885a308d313198a2e0370734`. -/
def NIST_PT : List Nat :=
  [0x32, 0x43, 0xf6, 0xa8, 0x88, 0x5a, 0x30, 0x8d,
   0x31, 0x31, 0x98, 0xa2, 0xe0, 0x37, 0x07, 0x34]

/-- NIST FIPS-197 Appendix B ciphertext `3925841d02dc09fbdc118597196a0b32`. -/
def NIST_CT : List Nat :=
  [0x39, 0x25, 0x84, 0x1d, 0x02, 0xdc, 0x09, 0xfb,
   0xdc, 0x11, 0x85, 0x97, 0x19, 0x6a, 0x0b, 0x32]

/-- The serial connection as `encrypt_block` sees it: the `is_open` flag of
`serial.Serial`, and the bytes the device delivers in response to the pending
request.  A read of `n` bytes returns `min n rx.length` bytes: fewer than `n`
models the timeout expiring before the device sent the rest. -/
structure Serial where
  is_open : Bool
  rx : List Nat
deriving DecidableEq, Repr

/-- One call on the transport, as issued by `encrypt_block`:
`reset_input` is `ser.reset_input_buffer()`, `write` is `ser.write(tx_frame)`,
`flush` is `ser.flush()`, and `read n` is `ser.read(n)`. -/
inductive Action where
  | reset_input : Action
  | write : List Nat → Action
  | flush : Action
  | read : Nat → Action
deriving DecidableEq, Repr

/-- `ser.read(n)`: returns up to `n` bytes, short when the timeout expires
with fewer bytes available. -/
def serRead (s : Serial) (n : Nat) : List Nat := s.rx.take n

/-- The TX frame built at line 137: `tx_frame = key + plaintext + self.FRAME_MARKER`. -/
def encodeRequest (key plaintext : List Nat) : List Nat :=
  key ++ plaintext ++ FRAME_MARKER

/-- `struct.unpack('<I', b)[0]` on a 4-byte string: the little-endian unsigned
32-bit integer.  (On any other length `struct.unpack` raises; that branch is
unreachable where this is used, so it is mapped to 0.) -/
def unpack_le32 : List Nat → Nat
  | [b0, b1, b2, b3] => b0 + 0x100 * b1 + 0x10000 * b2 + 0x1000000 * b3
  | _ => 0

/-- The RX-frame parse at lines 153-154: ciphertext is the first `BLOCK_SIZE`
bytes, cycle count the little-endian uint32 of the rest. -/
def decodeResponse (rx_data : List Nat) : List Nat × Nat :=
  (rx_data.take BLOCK_SIZE, unpack_le32 (rx_data.drop BLOCK_SIZE))

/-- `AESBenchmark.encrypt_block` (lines 117-156).  Returns the Python pair
`(ciphertext, cycle_count)` together with the log of transport calls made,
inside `Except` because the length checks `raise ValueError`.  `ser = none`
models `self.ser is None`. -/
def encrypt_block (ser : Option Serial) (key plaintext : List Nat) :
    Except String ((Option (List Nat) × Option Nat) × List Action) :=
  match ser with
  | none => .ok ((none, none), [])
  | some s =>
    if s.is_open = false then .ok ((none, none), [])
    else if key.length ≠ KEY_SIZE then .error "Key must be 16 bytes"
    else if plaintext.length ≠ BLOCK_SIZE then .error "Plaintext must be 16 bytes"
    else
      let tx_frame := encodeRequest key plaintext
      let rx_data := serRead s RX_FRAME_SIZE
      let log := [Action.reset_input, Action.write tx_frame, Action.flush,
                  Action.read RX_FRAME_SIZE]
      if rx_data.length ≠ RX_FRAME_SIZE then .ok ((none, none), log)
      else .ok ((some (decodeResponse rx_data).1, some (decodeResponse rx_data).2), log)

/-- `AESBenchmark.validate_with_nist` (lines 158-163): one probe round trip with
the NIST vector; `False` when no ciphertext came back, otherwise a byte-for-byte
comparison with `NIST_CT`. -/
def validate_with_nist (ser : Option Serial) : Except String Bool :=
  match encrypt_block ser NIST_KEY NIST_PT with
  | .error e => .error e
  | .ok ((ct?, _), _) =>
    match ct? with
    | none => .ok false
    | some ct => .ok (decide (ct = NIST_CT))

/-- A candidate serial port as `auto_detect` sees it: its device name, whether
`connect()` succeeds, and the bytes the device answers to the NIST probe with. -/
structure PortSim where
  device : String
  can_open : Bool
  rx : List Nat
deriving DecidableEq, Repr

/-- The state of an `AESBenchmark` object: the port name and the connection. -/
structure Bench where
  port : String
  ser : Option Serial
deriving DecidableEq, Repr

/-- The connection `connect()` establishes for a port that opens. -/
def mkSerial (p : PortSim) : Serial := ⟨true, p.rx⟩

/-- The `AESBenchmark` object `auto_detect` builds for a port that opens. -/
def mkBench (p : PortSim) : Bench := ⟨p.device, some (mkSerial p)⟩

/-- Connection lifecycle events of `auto_detect`, indexed by the position of
the candidate port in the scanned list. -/
inductive PortEvent where
  | opened : Nat → PortEvent
  | closed : Nat → PortEvent
deriving DecidableEq, Repr

/-- Whether a candidate port passes the probe in `auto_detect`: it opens and
`validate_with_nist` returns `True` (an exception or `False` both lead to the
`disconnect`-and-continue path). -/
def matchesNist (p : PortSim) : Bool :=
  p.can_open && (match validate_with_nist (some (mkSerial p)) with
    | .ok true => true
    | _ => false)

/-- The scanning loop of `AESBenchmark.auto_detect` (lines 190-210), with the
current candidate index threaded through and every `connect`/`disconnect`
recorded as a `PortEvent`.  A port that fails to open produces no event; a
matching port is returned with its connection still open; a non-matching or
erroring port is disconnected before the scan continues. -/
def auto_detect_go : Nat → List PortSim → Option Bench × List PortEvent
  | _, [] => (none, [])
  | i, p :: rest =>
    if p.can_open = false then auto_detect_go (i + 1) rest
    else
      match validate_with_nist (some (mkSerial p)) with
      | .ok true => (some (mkBench p), [PortEvent.opened i])
      | _ =>
        let r := auto_detect_go (i + 1) rest
        (r.1, PortEvent.opened i :: PortEvent.closed i :: r.2)

/-- `AESBenchmark.auto_detect` (lines 172-214): scan the candidate ports in
order, returning the first one that answers the NIST probe correctly. -/
def auto_detect (ports : List PortSim) : Option Bench × List PortEvent :=
  auto_detect_go 0 ports

/-- Result record of `run_latency_test` (lines 363-374). Latencies are
modelled as exact rationals (the script stores float milliseconds; nothing
here depends on rounding). -/
structure LatencyStats where
  samples : Nat
  min_latency_ms : ℚ
  max_latency_ms : ℚ
  avg_latency_ms : ℚ
  median_latency_ms : ℚ
  p95_latency_ms : ℚ
  p99_latency_ms : ℚ
  min_hw_cycles : Nat
  max_hw_cycles : Nat
  avg_hw_cycles : ℚ
deriving DecidableEq, Repr

/-- `run_latency_test` (lines 336-376), parametrised by the outcome of each
sample's round trip: `none` when `encrypt_block` returned no ciphertext,
`some (latency_ms, cycles)` otherwise.  Returns `none` for the
`{'error': 'No successful measurements'}` dictionary.  Both lists are sorted
ascending, independently; the percentile indices `int(len * 0.95)` and
`int(len * 0.99)` are rendered as the exact floors `len * 19 / 20` and
`len * 99 / 100` (for every feasible list length the float products round to
the same integer part). -/
def run_latency_test (samples : List (Option (ℚ × Nat))) : Option LatencyStats :=
  let latencies := samples.filterMap (fun s => s.map Prod.fst)
  let hw_cycles := samples.filterMap (fun s => s.map Prod.snd)
  if latencies = [] then none
  else
    let ls := latencies.insertionSort (· ≤ ·)
    let cs := hw_cycles.insertionSort (· ≤ ·)
    some
      { samples := ls.length
        min_latency_ms := (ls.min?).getD 0
        max_latency_ms := (ls.max?).getD 0
        avg_latency_ms := ls.sum / ls.length
        median_latency_ms := ls.getD (ls.length / 2) 0
        p95_latency_ms := ls.getD (ls.length * 19 / 20) 0
        p99_latency_ms := ls.getD (ls.length * 99 / 100) 0
        min_hw_cycles := (cs.min?).getD 0
        max_hw_cycles := (cs.max?).getD 0
        avg_hw_cycles := (cs.sum : ℚ) / cs.length }

/-- Result record of `run_random_tests` (lines 287-298); `cycle_stats` is
`some (min, max, mean)` exactly when at least one iteration passed. -/
structure RandomStats where
  passed : Nat
  failed : Nat
  total : Nat
  pass_rate : ℚ
  cycle_stats : Option (Nat × Nat × ℚ)
deriving DecidableEq, Repr

/-- `run_random_tests` (lines 248-299), parametrised by the per-iteration
round-trip outcome (`none` for no response, `some (hw_ciphertext, cycles)`)
paired with the reference ciphertext the external software AES computes for
that iteration's random key/plaintext.  The fold mirrors the loop body:
no response counts as a failure; a response matching the reference counts as
a pass and contributes its cycle count; a mismatch counts as a failure. -/
def run_random_tests (trials : List (Option (List Nat × Nat) × List Nat)) : RandomStats :=
  let acc := trials.foldl (fun (acc : Nat × Nat × List Nat) t =>
    match t.1 with
    | none => (acc.1, acc.2.1 + 1, acc.2.2)
    | some (hw_ct, cycles) =>
      if hw_ct = t.2 then (acc.1 + 1, acc.2.1, acc.2.2 ++ [cycles])
      else (acc.1, acc.2.1 + 1, acc.2.2)) (0, 0, [])
  { passed := acc.1
    failed := acc.2.1
    total := trials.length
    pass_rate := if trials.length > 0 then (acc.1 : ℚ) / trials.length * 100 else 0
    cycle_stats :=
      if acc.2.2 ≠ [] then
        some ((acc.2.2.min?).getD 0, (acc.2.2.max?).getD 0, (acc.2.2.sum : ℚ) / acc.2.2.length)
      else none }

/-- Cycle-count fields of the `run_throughput_test` result (lines 324-331).
Wall-clock fields (`elapsed_sec`, `blocks_per_sec`, ...) depend on real-time
measurement and are outside the model. -/
structure ThroughputStats where
  blocks : Nat
  total_cycles : Nat
  avg_cycles : ℚ
deriving DecidableEq, Repr

/-- The accumulation loop and cycle statistics of `run_throughput_test`
(lines 302-333), parametrised by the round-trip outcomes observed before the
duration expired (`some cycles` when a ciphertext came back). -/
def run_throughput_test (results : List (Option Nat)) : ThroughputStats :=
  let acc := results.foldl (fun (acc : Nat × Nat) r =>
    match r with
    | none => acc
    | some cycles => (acc.1 + 1, acc.2 + cycles)) (0, 0)
  { blocks := acc.1
    total_cycles := acc.2
    avg_cycles := if acc.1 > 0 then (acc.2 : ℚ) / acc.1 else 0 }

/-- The zero padding of `run_image_test` (lines 418-423): extend the pixel
buffer with zero bytes up to the next multiple of 16, leaving an aligned
buffer untouched. -/
def pad16 (pixels : List Nat) : List Nat :=
  if pixels.length % 16 ≠ 0 then pixels ++ List.replicate (16 - pixels.length % 16) 0
  else pixels

/-- The 16-byte slices `pixels[i*16:(i+1)*16]` for `i < n`, as taken by the
block loop of `run_image_test` (line 449). -/
def block_slices (l : List Nat) (n : Nat) : List (List Nat) :=
  (List.range n).map (fun i => (l.drop (i * 16)).take 16)

/-- The hardware encryption loop of `run_image_test` (lines 443-457),
parametrised by the per-block round-trip outcome: a failed block contributes
a 16-byte zero placeholder, a successful one its ciphertext. -/
def hw_bulk_encrypt (hw : List Nat → Option (List Nat × Nat)) (pixels : List Nat) :
    List Nat :=
  ((block_slices pixels (pixels.length / 16)).map (fun block =>
    match hw block with
    | none => List.replicate 16 0
    | some (ct, _) => ct)).flatten

/-- Modelled from the spec: the external `SoftwareAES128` collaborator's ECB
mode (`AES.new(key, AES.MODE_ECB)` from the crypto library, used at lines
435-436 and 523) applies the supplied block transformation to each 16-byte
block of an aligned buffer independently and concatenates the results. -/
def ecb_apply (f : List Nat → List Nat) (buf : List Nat) : List Nat :=
  ((block_slices buf (buf.length / 16)).map f).flatten

/-- Concrete latency-test input: ten successful samples with latencies
`[1, ..., 10]` ms and cycle counts `[1, ..., 10]`. -/
def latencySample10 : List (Option (ℚ × Nat)) :=
  [some (1, 1), some (2, 2), some (3, 3), some (4, 4), some (5, 5),
   some (6, 6), some (7, 7), some (8, 8), some (9, 9), some (10, 10)]

/-- Concrete discovery scenario: three ports that all open, of which only the
second answers the NIST probe with the expected ciphertext. -/
def demoPorts : List PortSim :=
  [⟨"COM1", true, [1, 2, 3]⟩,
   ⟨"COM2", true, NIST_CT ++ [0x10, 0x27, 0, 0]⟩,
   ⟨"COM3", true, List.replicate 20 0⟩]

/-- Concrete 20-byte buffer for the bulk-test witness (length not a multiple
of 16, so one padded block plus a remainder block). -/
def bufEx : List Nat := List.range 20

/-! ### Helper lemmas -/

/-- The transport-call log of a round trip that reaches the wire. -/
def encLog (key plaintext : List Nat) : List Action :=
  [Action.reset_input, Action.write (encodeRequest key plaintext), Action.flush,
   Action.read RX_FRAME_SIZE]

/-- Branch characterization of `encrypt_block` on an open connection with
valid input lengths. -/
lemma encrypt_block_open_eq (s : Serial) (key plaintext : List Nat)
    (hopen : s.is_open = true) (hk : key.length = 16) (hp : plaintext.length = 16) :
    encrypt_block (some s) key plaintext =
      if (serRead s RX_FRAME_SIZE).length ≠ RX_FRAME_SIZE then
        .ok ((none, none), encLog key plaintext)
      else
        .ok ((some (decodeResponse (serRead s RX_FRAME_SIZE)).1,
              some (decodeResponse (serRead s RX_FRAME_SIZE)).2), encLog key plaintext) := by
  simp only [encrypt_block, encLog]
  rw [if_neg (by simp [hopen]), if_neg (by simp [hk, KEY_SIZE]),
    if_neg (by simp [hp, BLOCK_SIZE])]

/-- A 4-byte string of genuine bytes unpacks to a value below `2 ^ 32`. -/
lemma unpack_le32_lt (l : List Nat) (h4 : l.length = 4) (hb : ∀ b ∈ l, b < 256) :
    unpack_le32 l < 2 ^ 32 := by
  match l, h4 with
  | [b0, b1, b2, b3], _ =>
    have h0 : b0 < 256 := hb b0 (by simp)
    have h1 : b1 < 256 := hb b1 (by simp)
    have h2 : b2 < 256 := hb b2 (by simp)
    have h3 : b3 < 256 := hb b3 (by simp)
    have : (2 : Nat) ^ 32 = 4294967296 := by norm_num
    simp only [unpack_le32, this]
    omega

/-- Folding the throughput accumulator over a run with no successful round
trip leaves the accumulator unchanged. -/
lemma throughput_foldl_none (results : List (Option Nat)) (h : ∀ r ∈ results, r = none) :
    ∀ acc : Nat × Nat,
      results.foldl (fun (acc : Nat × Nat) r =>
        match r with
        | none => acc
        | some cycles => (acc.1 + 1, acc.2 + cycles)) acc = acc := by
  induction results with
  | nil => intro acc; rfl
  | cons r rest ih =>
    intro acc
    have hr : r = none := h r (by simp)
    subst hr
    exact ih (fun x hx => h x (by simp [hx])) acc

/-! ### Claim theorems -/

/-- C1: for every 16-byte key and plaintext the encoded request frame is the
34-byte string key ‖ plaintext ‖ 0xFF 0xFF, and decoding any 20-byte input
yields the first 16 bytes as ciphertext and the little-endian uint32 of the
last 4 bytes as cycle count. -/
theorem frame_codec_correct (key plaintext : List Nat)
    (hk : key.length = 16) (hp : plaintext.length = 16)
    (b0 b1 b2 b3 b4 b5 b6 b7 b8 b9 b10 b11 b12 b13 b14 b15 b16 b17 b18 b19 : Nat) :
    (encodeRequest key plaintext).length = 34 ∧
    encodeRequest key plaintext = key ++ plaintext ++ [0xFF, 0xFF] ∧
    (encodeRequest key plaintext).drop 32 = [0xFF, 0xFF] ∧
    decodeResponse
        [b0, b1, b2, b3, b4, b5, b6, b7, b8, b9,
         b10, b11, b12, b13, b14, b15, b16, b17, b18, b19] =
      ([b0, b1, b2, b3, b4, b5, b6, b7, b8, b9, b10, b11, b12, b13, b14, b15],
       b16 + 2 ^ 8 * b17 + 2 ^ 16 * b18 + 2 ^ 24 * b19) := by
  refine ⟨?_, rfl, ?_, rfl⟩
  · simp [encodeRequest, FRAME_MARKER, hk, hp]
  · have h32 : (key ++ plaintext).length = 32 := by simp [hk, hp]
    have he : encodeRequest key plaintext = (key ++ plaintext) ++ FRAME_MARKER := by
      simp [encodeRequest]
    rw [he, ← h32, List.drop_left]
    rfl

/-- Witness for C1 at the NIST key/plaintext and the response bytes
`[0, 1, ..., 19]`. -/
theorem frame_codec_correct_witness :
    (encodeRequest NIST_KEY NIST_PT).length = 34 ∧
    encodeRequest NIST_KEY NIST_PT = NIST_KEY ++ NIST_PT ++ [0xFF, 0xFF] ∧
    (encodeRequest NIST_KEY NIST_PT).drop 32 = [0xFF, 0xFF] ∧
    decodeResponse
        [0, 1, 2, 3, 4, 5, 6, 7, 8, 9, 10, 11, 12, 13, 14, 15, 16, 17, 18, 19] =
      ([0, 1, 2, 3, 4, 5, 6, 7, 8, 9, 10, 11, 12, 13, 14, 15],
       16 + 2 ^ 8 * 17 + 2 ^ 16 * 18 + 2 ^ 24 * 19) :=
  frame_codec_correct NIST_KEY NIST_PT (by decide) (by decide)
    0 1 2 3 4 5 6 7 8 9 10 11 12 13 14 15 16 17 18 19

/-- C3 counterexample: the round trip does not report distinguishable error
kinds — a missing connection, a closed connection, a total timeout (no bytes)
and a short read (3 of 20 bytes) all return the very same `(None, None)`. -/
theorem error_kinds_indistinguishable :
    (encrypt_block none NIST_KEY NIST_PT).map Prod.fst = .ok (none, none) ∧
    (encrypt_block (some ⟨false, []⟩) NIST_KEY NIST_PT).map Prod.fst = .ok (none, none) ∧
    (encrypt_block (some ⟨true, []⟩) NIST_KEY NIST_PT).map Prod.fst = .ok (none, none) ∧
    (encrypt_block (some ⟨true, [1, 2, 3]⟩) NIST_KEY NIST_PT).map Prod.fst = .ok (none, none) :=
  ⟨rfl, rfl, rfl, rfl⟩

/-- C3 (amended): every failed round trip returns the same `(None, None)`
pair with no error-kind distinction — immediately and with no transport call
when the connection is missing or closed, and after exactly one bounded read
when fewer than 20 bytes arrive (covering both the no-bytes timeout and the
partial short read); the engine never retries internally. -/
theorem failure_reporting (ser : Option Serial) (key plaintext : List Nat) :
    ((ser = none ∨ ∃ s, ser = some s ∧ s.is_open = false) →
      encrypt_block ser key plaintext = .ok ((none, none), [])) ∧
    (∀ s, ser = some s → s.is_open = true → key.length = 16 → plaintext.length = 16 →
      s.rx.length < RX_FRAME_SIZE →
      encrypt_block ser key plaintext =
        .ok ((none, none),
          [Action.reset_input, Action.write (encodeRequest key plaintext),
           Action.flush, Action.read RX_FRAME_SIZE])) := by
  constructor
  · rintro (rfl | ⟨s, rfl, hs⟩)
    · rfl
    · simp [encrypt_block, hs]
  · rintro s rfl hopen hk hp hshort
    have h20 : RX_FRAME_SIZE = 20 := by simp [RX_FRAME_SIZE, BLOCK_SIZE]
    have hlen : (serRead s RX_FRAME_SIZE).length ≠ RX_FRAME_SIZE := by
      simp only [serRead, List.length_take, h20]
      rw [h20] at hshort
      omega
    rw [encrypt_block_open_eq s key plaintext hopen hk hp, if_pos hlen]
    rfl

/-- Witness for C3 (amended): a closed connection and a 3-byte short read
both produce `(None, None)`. -/
theorem failure_reporting_witness :
    encrypt_block (some ⟨false, [7]⟩) NIST_KEY NIST_PT = .ok ((none, none), []) ∧
    encrypt_block (some ⟨true, [1, 2, 3]⟩) NIST_KEY NIST_PT =
      .ok ((none, none),
        [Action.reset_input, Action.write (encodeRequest NIST_KEY NIST_PT),
         Action.flush, Action.read RX_FRAME_SIZE]) :=
  ⟨(failure_reporting (some ⟨false, [7]⟩) NIST_KEY NIST_PT).1 (Or.inr ⟨_, rfl, rfl⟩),
   (failure_reporting (some ⟨true, [1, 2, 3]⟩) NIST_KEY NIST_PT).2 _ rfl rfl
     (by decide) (by decide) (by decide)⟩

/-- C4: a round trip that writes makes exactly one read attempt, for exactly
`RX_FRAME_SIZE` (20) bytes, after its write (the transport log is exactly
reset-input, write, flush, read-20 — or empty when nothing was sent); and a
round trip that receives fewer than 20 bytes returns `(None, None)`, never a
decoded frame. -/
theorem single_read_no_partial_decode (ser : Option Serial) (key plaintext : List Nat)
    (res : Option (List Nat) × Option Nat) (log : List Action)
    (h : encrypt_block ser key plaintext = .ok (res, log)) :
    (log = [] ∨
      log = [Action.reset_input, Action.write (encodeRequest key plaintext),
             Action.flush, Action.read RX_FRAME_SIZE]) ∧
    (∀ s, ser = some s → s.rx.length < RX_FRAME_SIZE → res = (none, none)) := by
  have h20 : RX_FRAME_SIZE = 20 := by simp [RX_FRAME_SIZE, BLOCK_SIZE]
  rcases ser with _ | s
  · simp only [encrypt_block, Except.ok.injEq, Prod.mk.injEq] at h
    exact ⟨Or.inl h.2.symm, by rintro s ⟨⟩⟩
  · rcases hopen : s.is_open with _ | _
    · rw [show encrypt_block (some s) key plaintext = .ok ((none, none), []) by
        simp [encrypt_block, hopen]] at h
      simp only [Except.ok.injEq, Prod.mk.injEq] at h
      exact ⟨Or.inl h.2.symm, fun s' hs' _ => h.1.symm⟩
    · by_cases hk : key.length = 16
      · by_cases hp : plaintext.length = 16
        · rw [encrypt_block_open_eq s key plaintext hopen hk hp] at h
          by_cases hlen : (serRead s RX_FRAME_SIZE).length = RX_FRAME_SIZE
          · rw [if_neg (by simp [hlen])] at h
            simp only [Except.ok.injEq, Prod.mk.injEq] at h
            refine ⟨Or.inr h.2.symm, ?_⟩
            rintro s' hs' hshort
            cases hs'
            exfalso
            rw [h20] at hshort
            simp only [serRead, List.length_take, h20] at hlen
            omega
          · rw [if_pos hlen] at h
            simp only [Except.ok.injEq, Prod.mk.injEq] at h
            exact ⟨Or.inr h.2.symm, fun s' hs' _ => h.1.symm⟩
        · have : ∃ msg, encrypt_block (some s) key plaintext = .error msg :=
            ⟨"Plaintext must be 16 bytes",
              by simp [encrypt_block, hopen, KEY_SIZE, BLOCK_SIZE, hk, hp]⟩
          rcases this with ⟨msg, hmsg⟩
          rw [hmsg] at h
          exact absurd h (by simp)
      · have : ∃ msg, encrypt_block (some s) key plaintext = .error msg :=
          ⟨"Key must be 16 bytes", by simp [encrypt_block, hopen, KEY_SIZE, hk]⟩
        rcases this with ⟨msg, hmsg⟩
        rw [hmsg] at h
        exact absurd h (by simp)

/-- Witness for C4: a short read of 3 of 20 bytes yields the four-entry log
(one write, one read of 20 after it) and an undecoded `(None, None)` result. -/
theorem single_read_no_partial_decode_witness :
    (([Action.reset_input, Action.write (encodeRequest NIST_KEY NIST_PT),
       Action.flush, Action.read RX_FRAME_SIZE] : List Action) = [] ∨
      ([Action.reset_input, Action.write (encodeRequest NIST_KEY NIST_PT),
        Action.flush, Action.read RX_FRAME_SIZE] : List Action) =
        [Action.reset_input, Action.write (encodeRequest NIST_KEY NIST_PT),
         Action.flush, Action.read RX_FRAME_SIZE]) ∧
    (∀ s, (some (⟨true, [1, 2, 3]⟩ : Serial)) = some s → s.rx.length < RX_FRAME_SIZE →
      ((none, none) : Option (List Nat) × Option Nat) = (none, none)) :=
  single_read_no_partial_decode (some ⟨true, [1, 2, 3]⟩) NIST_KEY NIST_PT
    (none, none) _ rfl

/-- C7: with an open connection, `encrypt_block` raises a `ValueError` (an
`Except.error`, not a `(None, None)` result) whenever the key or the
plaintext is not exactly 16 bytes long. -/
theorem invalid_length_raises (s : Serial) (key plaintext : List Nat)
    (hopen : s.is_open = true) (h : key.length ≠ 16 ∨ plaintext.length ≠ 16) :
    ∃ msg, encrypt_block (some s) key plaintext = .error msg := by
  by_cases hk : key.length = 16
  · rcases h with h | h
    · exact absurd hk h
    · exact ⟨"Plaintext must be 16 bytes",
        by simp [encrypt_block, hopen, KEY_SIZE, BLOCK_SIZE, hk, h]⟩
  · exact ⟨"Key must be 16 bytes", by simp [encrypt_block, hopen, KEY_SIZE, hk]⟩

/-- Witness for C7 at key lengths 0, 15, 17 and plaintext lengths 33, 35. -/
theorem invalid_length_raises_witness :
    (∃ msg, encrypt_block (some ⟨true, []⟩) [] NIST_PT = .error msg) ∧
    (∃ msg, encrypt_block (some ⟨true, []⟩) (List.replicate 15 0) NIST_PT = .error msg) ∧
    (∃ msg, encrypt_block (some ⟨true, []⟩) (List.replicate 17 0) NIST_PT = .error msg) ∧
    (∃ msg, encrypt_block (some ⟨true, []⟩) NIST_KEY (List.replicate 33 0) = .error msg) ∧
    (∃ msg, encrypt_block (some ⟨true, []⟩) NIST_KEY (List.replicate 35 0) = .error msg) :=
  ⟨invalid_length_raises _ _ _ rfl (Or.inl (by decide)),
   invalid_length_raises _ _ _ rfl (Or.inl (by decide)),
   invalid_length_raises _ _ _ rfl (Or.inl (by decide)),
   invalid_length_raises _ _ _ rfl (Or.inr (by decide)),
   invalid_length_raises _ _ _ rfl (Or.inr (by decide))⟩

/-- C8: the not-connected check precedes length validation — with a missing
or closed connection `encrypt_block` returns `(None, None)` immediately (no
transport call) for every key and plaintext, even of invalid lengths, and
never raises. -/
theorem not_connected_short_circuits (ser : Option Serial) (key plaintext : List Nat)
    (h : ser = none ∨ ∃ s, ser = some s ∧ s.is_open = false) :
    encrypt_block ser key plaintext = .ok ((none, none), []) := by
  rcases h with rfl | ⟨s, rfl, hs⟩
  · rfl
  · simp [encrypt_block, hs]

/-- Witness for C8: a closed connection with a 3-byte key and an empty
plaintext still returns `(None, None)` with no exception. -/
theorem not_connected_short_circuits_witness :
    encrypt_block (some ⟨false, [9]⟩) [1, 2, 3] [] = .ok ((none, none), []) ∧
    encrypt_block none [1] [2] = .ok ((none, none), []) :=
  ⟨not_connected_short_circuits (some ⟨false, [9]⟩) [1, 2, 3] [] (Or.inr ⟨_, rfl, rfl⟩),
   not_connected_short_circuits none [1] [2] (Or.inl rfl)⟩

/-- C9: the result of `encrypt_block` is all-or-nothing — when the device
delivers genuine bytes, a successful call returns a 16-byte ciphertext
together with a cycle count below `2 ^ 32`, and every other call returns
`(None, None)`; mixed results never occur. -/
theorem encrypt_block_all_or_nothing (ser : Option Serial) (key plaintext : List Nat)
    (hbytes : ∀ s, ser = some s → ∀ b ∈ s.rx, b < 256)
    (res : Option (List Nat) × Option Nat) (log : List Action)
    (h : encrypt_block ser key plaintext = .ok (res, log)) :
    res = (none, none) ∨
    ∃ ct cyc, res = (some ct, some cyc) ∧ ct.length = 16 ∧ cyc < 2 ^ 32 := by
  have h20 : RX_FRAME_SIZE = 20 := by simp [RX_FRAME_SIZE, BLOCK_SIZE]
  rcases ser with _ | s
  · simp only [encrypt_block, Except.ok.injEq, Prod.mk.injEq] at h
    exact Or.inl h.1.symm
  · rcases hopen : s.is_open with _ | _
    · rw [show encrypt_block (some s) key plaintext = .ok ((none, none), []) by
        simp [encrypt_block, hopen]] at h
      simp only [Except.ok.injEq, Prod.mk.injEq] at h
      exact Or.inl h.1.symm
    · by_cases hk : key.length = 16
      · by_cases hp : plaintext.length = 16
        · rw [encrypt_block_open_eq s key plaintext hopen hk hp] at h
          by_cases hlen : (serRead s RX_FRAME_SIZE).length = RX_FRAME_SIZE
          · rw [if_neg (by simp [hlen])] at h
            simp only [Except.ok.injEq, Prod.mk.injEq] at h
            refine Or.inr ⟨(decodeResponse (serRead s RX_FRAME_SIZE)).1,
              (decodeResponse (serRead s RX_FRAME_SIZE)).2, h.1.symm, ?_, ?_⟩
            · simp only [serRead, List.length_take, h20] at hlen
              simp only [decodeResponse, serRead, List.length_take, BLOCK_SIZE, h20]
              omega
            · apply unpack_le32_lt
              · simp only [serRead, List.length_take, h20] at hlen
                simp only [decodeResponse, serRead, BLOCK_SIZE, h20, List.length_drop,
                  List.length_take]
                omega
              · intro b hb
                refine hbytes s rfl b ?_
                simp only [decodeResponse, serRead] at hb
                exact List.take_subset _ _ (List.drop_subset _ _ hb)
          · rw [if_pos hlen] at h
            simp only [Except.ok.injEq, Prod.mk.injEq] at h
            exact Or.inl h.1.symm
        · have : ∃ msg, encrypt_block (some s) key plaintext = .error msg :=
            ⟨"Plaintext must be 16 bytes",
              by simp [encrypt_block, hopen, KEY_SIZE, BLOCK_SIZE, hk, hp]⟩
          rcases this with ⟨msg, hmsg⟩
          rw [hmsg] at h
          exact absurd h (by simp)
      · have : ∃ msg, encrypt_block (some s) key plaintext = .error msg :=
          ⟨"Key must be 16 bytes", by simp [encrypt_block, hopen, KEY_SIZE, hk]⟩
        rcases this with ⟨msg, hmsg⟩
        rw [hmsg] at h
        exact absurd h (by simp)

/-- Witness for C9: with the device delivering the bytes `[0, ..., 19]`, the
successful round trip returns the 16-byte ciphertext `[0, ..., 15]` and the
cycle count `16 + 256·17 + 65536·18 + 16777216·19 = 319951120 < 2 ^ 32`. -/
theorem encrypt_block_all_or_nothing_witness :
    ((some (List.range 16), some 319951120) : Option (List Nat) × Option Nat) = (none, none) ∨
    ∃ ct cyc,
      ((some (List.range 16), some 319951120) : Option (List Nat) × Option Nat) =
        (some ct, some cyc) ∧ ct.length = 16 ∧ cyc < 2 ^ 32 :=
  encrypt_block_all_or_nothing (some ⟨true, List.range 20⟩) NIST_KEY NIST_PT
    (fun s hs => by cases hs; decide) (some (List.range 16), some 319951120) _ rfl

/-- C2 counterexample: on the latency sample list `[1, ..., 10]` the script
reports `latencies[len // 2] = latencies[5] = 6` as the median — not 5 as the
claim (and the spec's example) state; p95 and p99 are 10 as claimed. -/
theorem latency_example_median_is_six :
    ∃ st, run_latency_test latencySample10 = some st ∧
      st.median_latency_ms = 6 ∧ ¬ st.median_latency_ms = 5 ∧
      st.p95_latency_ms = 10 ∧ st.p99_latency_ms = 10 :=
  ⟨_, rfl, by decide, by decide, by decide, by decide⟩

/-- C2 (amended): the latency test sorts the latency list and the cycle-count
list independently in ascending order and reports the median as the element
at index `len / 2` of the sorted latency list, the 95th percentile at index
`⌊len · 0.95⌋` and the 99th percentile at index `⌊len · 0.99⌋`; in particular,
for the sample list `[1, ..., 10]` the reported median is 6 (the element at
index 5), the p95 is 10 and the p99 is 10. -/
theorem run_latency_percentiles (samples : List (Option (ℚ × Nat)))
    (h : samples.filterMap (fun s => s.map Prod.fst) ≠ []) :
    (∃ st : LatencyStats, ∃ ls : List ℚ, ∃ cs : List Nat,
      run_latency_test samples = some st ∧
      ls.Perm (samples.filterMap (fun s => s.map Prod.fst)) ∧ ls.Sorted (· ≤ ·) ∧
      cs.Perm (samples.filterMap (fun s => s.map Prod.snd)) ∧ cs.Sorted (· ≤ ·) ∧
      st.median_latency_ms = ls.getD (ls.length / 2) 0 ∧
      st.p95_latency_ms = ls.getD (ls.length * 19 / 20) 0 ∧
      st.p99_latency_ms = ls.getD (ls.length * 99 / 100) 0) ∧
    (∃ st10, run_latency_test latencySample10 = some st10 ∧
      st10.median_latency_ms = 6 ∧ st10.p95_latency_ms = 10 ∧ st10.p99_latency_ms = 10) := by
  constructor
  · simp only [run_latency_test]
    rw [if_neg h]
    exact ⟨_, _, _, rfl, List.perm_insertionSort _ _, List.sorted_insertionSort _ _,
      List.perm_insertionSort _ _, List.sorted_insertionSort _ _, rfl, rfl, rfl⟩
  · exact ⟨_, rfl, by decide, by decide, by decide⟩

/-- Witness for C2 (amended) at the sample list `[1, ..., 10]`. -/
theorem run_latency_percentiles_witness :
    (∃ st : LatencyStats, ∃ ls : List ℚ, ∃ cs : List Nat,
      run_latency_test latencySample10 = some st ∧
      ls.Perm (latencySample10.filterMap (fun s => s.map Prod.fst)) ∧ ls.Sorted (· ≤ ·) ∧
      cs.Perm (latencySample10.filterMap (fun s => s.map Prod.snd)) ∧ cs.Sorted (· ≤ ·) ∧
      st.median_latency_ms = ls.getD (ls.length / 2) 0 ∧
      st.p95_latency_ms = ls.getD (ls.length * 19 / 20) 0 ∧
      st.p99_latency_ms = ls.getD (ls.length * 99 / 100) 0) ∧
    (∃ st10, run_latency_test latencySample10 = some st10 ∧
      st10.median_latency_ms = 6 ∧ st10.p95_latency_ms = 10 ∧ st10.p99_latency_ms = 10) :=
  run_latency_percentiles latencySample10 (by decide)

/-- The result component of the scan is the first probe match. -/
lemma auto_detect_go_fst (i : Nat) (ports : List PortSim) :
    (auto_detect_go i ports).1 = (ports.find? matchesNist).map mkBench := by
  induction ports generalizing i with
  | nil => rfl
  | cons p rest ih =>
    cases hc : p.can_open with
    | false =>
      have hm : matchesNist p = false := by simp [matchesNist, hc]
      have hg : auto_detect_go i (p :: rest) = auto_detect_go (i + 1) rest := by
        simp [auto_detect_go, hc]
      rw [hg, ih (i + 1)]
      simp [List.find?_cons, hm]
    | true =>
      cases hv : validate_with_nist (some (mkSerial p)) with
      | error e =>
        have hm : matchesNist p = false := by simp [matchesNist, hv]
        have hg : (auto_detect_go i (p :: rest)).1 = (auto_detect_go (i + 1) rest).1 := by
          simp [auto_detect_go, hc, hv]
        rw [hg, ih (i + 1)]
        simp [List.find?_cons, hm]
      | ok b' =>
        cases b' with
        | false =>
          have hm : matchesNist p = false := by simp [matchesNist, hv]
          have hg : (auto_detect_go i (p :: rest)).1 = (auto_detect_go (i + 1) rest).1 := by
            simp [auto_detect_go, hc, hv]
          rw [hg, ih (i + 1)]
          simp [List.find?_cons, hm]
        | true =>
          have hm : matchesNist p = true := by simp [matchesNist, hc, hv]
          have hg : (auto_detect_go i (p :: rest)).1 = some (mkBench p) := by
            simp [auto_detect_go, hc, hv]
          rw [hg]
          simp [List.find?_cons, hm]

/-- Every event the scan logs concerns a candidate at or after the starting
index. -/
lemma auto_detect_go_events_lb (i : Nat) (ports : List PortSim) :
    ∀ j, (PortEvent.opened j ∈ (auto_detect_go i ports).2 ∨
      PortEvent.closed j ∈ (auto_detect_go i ports).2) → i ≤ j := by
  induction ports generalizing i with
  | nil =>
    intro j hj
    rcases hj with hj | hj <;> simp [auto_detect_go] at hj
  | cons p rest ih =>
    intro j hj
    cases hc : p.can_open with
    | false =>
      have hg : (auto_detect_go i (p :: rest)).2 = (auto_detect_go (i + 1) rest).2 := by
        simp [auto_detect_go, hc]
      rw [hg] at hj
      exact le_trans (Nat.le_succ i) (ih (i + 1) j hj)
    | true =>
      cases hv : validate_with_nist (some (mkSerial p)) with
      | error e =>
        have hg : (auto_detect_go i (p :: rest)).2 =
            PortEvent.opened i :: PortEvent.closed i :: (auto_detect_go (i + 1) rest).2 := by
          simp [auto_detect_go, hc, hv]
        rw [hg] at hj
        rcases hj with hj | hj <;> simp only [List.mem_cons] at hj <;>
          rcases hj with h | h | h
        · exact le_of_eq (PortEvent.opened.inj h).symm
        · exact absurd h (by simp)
        · exact le_trans (Nat.le_succ i) (ih (i + 1) j (Or.inl h))
        · exact absurd h (by simp)
        · exact le_of_eq (PortEvent.closed.inj h).symm
        · exact le_trans (Nat.le_succ i) (ih (i + 1) j (Or.inr h))
      | ok b' =>
        cases b' with
        | false =>
          have hg : (auto_detect_go i (p :: rest)).2 =
              PortEvent.opened i :: PortEvent.closed i :: (auto_detect_go (i + 1) rest).2 := by
            simp [auto_detect_go, hc, hv]
          rw [hg] at hj
          rcases hj with hj | hj <;> simp only [List.mem_cons] at hj <;>
            rcases hj with h | h | h
          · exact le_of_eq (PortEvent.opened.inj h).symm
          · exact absurd h (by simp)
          · exact le_trans (Nat.le_succ i) (ih (i + 1) j (Or.inl h))
          · exact absurd h (by simp)
          · exact le_of_eq (PortEvent.closed.inj h).symm
          · exact le_trans (Nat.le_succ i) (ih (i + 1) j (Or.inr h))
        | true =>
          have hg : (auto_detect_go i (p :: rest)).2 = [PortEvent.opened i] := by
            simp [auto_detect_go, hc, hv]
          rw [hg] at hj
          rcases hj with hj | hj <;> simp only [List.mem_singleton] at hj
          · exact le_of_eq (PortEvent.opened.inj hj).symm
          · exact absurd hj (by simp)

/-- Every connection the scan opens is closed again, except the one belonging
to the match that is returned. -/
lemma auto_detect_go_opened_closed (i : Nat) (ports : List PortSim) :
    ∀ j, PortEvent.opened j ∈ (auto_detect_go i ports).2 →
      PortEvent.closed j ∈ (auto_detect_go i ports).2 ∨
      ∃ p, ports[j - i]? = some p ∧ matchesNist p = true ∧
        (auto_detect_go i ports).1 = some (mkBench p) := by
  induction ports generalizing i with
  | nil =>
    intro j hj
    simp [auto_detect_go] at hj
  | cons p rest ih =>
    intro j hj
    cases hc : p.can_open with
    | false =>
      have hg1 : (auto_detect_go i (p :: rest)).1 = (auto_detect_go (i + 1) rest).1 := by
        simp [auto_detect_go, hc]
      have hg2 : (auto_detect_go i (p :: rest)).2 = (auto_detect_go (i + 1) rest).2 := by
        simp [auto_detect_go, hc]
      rw [hg2] at hj ⊢
      rw [hg1]
      have hij : i + 1 ≤ j := auto_detect_go_events_lb (i + 1) rest j (Or.inl hj)
      rcases ih (i + 1) j hj with h | ⟨q, hq, hmq, hr⟩
      · exact Or.inl h
      · refine Or.inr ⟨q, ?_, hmq, hr⟩
        rw [show j - i = (j - (i + 1)) + 1 from by omega, List.getElem?_cons_succ]
        exact hq
    | true =>
      cases hv : validate_with_nist (some (mkSerial p)) with
      | error e =>
        have hg1 : (auto_detect_go i (p :: rest)).1 = (auto_detect_go (i + 1) rest).1 := by
          simp [auto_detect_go, hc, hv]
        have hg2 : (auto_detect_go i (p :: rest)).2 =
            PortEvent.opened i :: PortEvent.closed i :: (auto_detect_go (i + 1) rest).2 := by
          simp [auto_detect_go, hc, hv]
        rw [hg2] at hj ⊢
        rw [hg1]
        simp only [List.mem_cons] at hj
        rcases hj with h | h | h
        · exact Or.inl (by simp [PortEvent.opened.inj h])
        · exact absurd h (by simp)
        · have hij : i + 1 ≤ j := auto_detect_go_events_lb (i + 1) rest j (Or.inl h)
          rcases ih (i + 1) j h with h2 | ⟨q, hq, hmq, hr⟩
          · exact Or.inl (by simp [h2])
          · refine Or.inr ⟨q, ?_, hmq, hr⟩
            rw [show j - i = (j - (i + 1)) + 1 from by omega, List.getElem?_cons_succ]
            exact hq
      | ok b' =>
        cases b' with
        | false =>
          have hg1 : (auto_detect_go i (p :: rest)).1 = (auto_detect_go (i + 1) rest).1 := by
            simp [auto_detect_go, hc, hv]
          have hg2 : (auto_detect_go i (p :: rest)).2 =
              PortEvent.opened i :: PortEvent.closed i :: (auto_detect_go (i + 1) rest).2 := by
            simp [auto_detect_go, hc, hv]
          rw [hg2] at hj ⊢
          rw [hg1]
          simp only [List.mem_cons] at hj
          rcases hj with h | h | h
          · exact Or.inl (by simp [PortEvent.opened.inj h])
          · exact absurd h (by simp)
          · have hij : i + 1 ≤ j := auto_detect_go_events_lb (i + 1) rest j (Or.inl h)
            rcases ih (i + 1) j h with h2 | ⟨q, hq, hmq, hr⟩
            · exact Or.inl (by simp [h2])
            · refine Or.inr ⟨q, ?_, hmq, hr⟩
              rw [show j - i = (j - (i + 1)) + 1 from by omega, List.getElem?_cons_succ]
              exact hq
        | true =>
          have hm : matchesNist p = true := by simp [matchesNist, hc, hv]
          have hg1 : (auto_detect_go i (p :: rest)).1 = some (mkBench p) := by
            simp [auto_detect_go, hc, hv]
          have hg2 : (auto_detect_go i (p :: rest)).2 = [PortEvent.opened i] := by
            simp [auto_detect_go, hc, hv]
          rw [hg2] at hj
          simp only [List.mem_singleton] at hj
          have hji : j = i := PortEvent.opened.inj hj
          subst hji
          refine Or.inr ⟨p, ?_, hm, hg1⟩
          simp

/-- A returned benchmark object comes from some candidate whose connection
was opened and never closed. -/
lemma auto_detect_go_found (i : Nat) (ports : List PortSim) (b : Bench)
    (hb : (auto_detect_go i ports).1 = some b) :
    ∃ j p, i ≤ j ∧ ports[j - i]? = some p ∧ b = mkBench p ∧
      PortEvent.opened j ∈ (auto_detect_go i ports).2 ∧
      PortEvent.closed j ∉ (auto_detect_go i ports).2 := by
  induction ports generalizing i with
  | nil => simp [auto_detect_go] at hb
  | cons p rest ih =>
    cases hc : p.can_open with
    | false =>
      have hg1 : (auto_detect_go i (p :: rest)).1 = (auto_detect_go (i + 1) rest).1 := by
        simp [auto_detect_go, hc]
      have hg2 : (auto_detect_go i (p :: rest)).2 = (auto_detect_go (i + 1) rest).2 := by
        simp [auto_detect_go, hc]
      rw [hg1] at hb
      obtain ⟨j, q, hij, hget, hbe, ho, hcl⟩ := ih (i + 1) hb
      refine ⟨j, q, by omega, ?_, hbe, by rw [hg2]; exact ho, by rw [hg2]; exact hcl⟩
      rw [show j - i = (j - (i + 1)) + 1 from by omega, List.getElem?_cons_succ]
      exact hget
    | true =>
      cases hv : validate_with_nist (some (mkSerial p)) with
      | error e =>
        have hg1 : (auto_detect_go i (p :: rest)).1 = (auto_detect_go (i + 1) rest).1 := by
          simp [auto_detect_go, hc, hv]
        have hg2 : (auto_detect_go i (p :: rest)).2 =
            PortEvent.opened i :: PortEvent.closed i :: (auto_detect_go (i + 1) rest).2 := by
          simp [auto_detect_go, hc, hv]
        rw [hg1] at hb
        obtain ⟨j, q, hij, hget, hbe, ho, hcl⟩ := ih (i + 1) hb
        refine ⟨j, q, by omega, ?_, hbe, ?_, ?_⟩
        · rw [show j - i = (j - (i + 1)) + 1 from by omega, List.getElem?_cons_succ]
          exact hget
        · rw [hg2]
          simp [ho]
        · rw [hg2]
          intro hmem
          simp only [List.mem_cons] at hmem
          rcases hmem with h | h | h
          · exact absurd h (by simp)
          · exact absurd (PortEvent.closed.inj h) (by omega)
          · exact hcl h
      | ok b' =>
        cases b' with
        | false =>
          have hg1 : (auto_detect_go i (p :: rest)).1 = (auto_detect_go (i + 1) rest).1 := by
            simp [auto_detect_go, hc, hv]
          have hg2 : (auto_detect_go i (p :: rest)).2 =
              PortEvent.opened i :: PortEvent.closed i :: (auto_detect_go (i + 1) rest).2 := by
            simp [auto_detect_go, hc, hv]
          rw [hg1] at hb
          obtain ⟨j, q, hij, hget, hbe, ho, hcl⟩ := ih (i + 1) hb
          refine ⟨j, q, by omega, ?_, hbe, ?_, ?_⟩
          · rw [show j - i = (j - (i + 1)) + 1 from by omega, List.getElem?_cons_succ]
            exact hget
          · rw [hg2]
            simp [ho]
          · rw [hg2]
            intro hmem
            simp only [List.mem_cons] at hmem
            rcases hmem with h | h | h
            · exact absurd h (by simp)
            · exact absurd (PortEvent.closed.inj h) (by omega)
            · exact hcl h
        | true =>
          have hg1 : (auto_detect_go i (p :: rest)).1 = some (mkBench p) := by
            simp [auto_detect_go, hc, hv]
          have hg2 : (auto_detect_go i (p :: rest)).2 = [PortEvent.opened i] := by
            simp [auto_detect_go, hc, hv]
          rw [hg1] at hb
          refine ⟨i, p, le_refl i, by simp, (Option.some.inj hb).symm, ?_, ?_⟩
          · rw [hg2]
            simp
          · rw [hg2]
            simp

/-- C5: `auto_detect` returns the first candidate whose probe ciphertext
equals the fixed NIST ciphertext, as a benchmark object whose connection is
open and is never closed; every other connection it opened is closed before
it returns; and when no candidate matches the result is `None` (in which case
every opened connection, the last-tried one included, has been closed). -/
theorem auto_detect_correct (ports : List PortSim) :
    (auto_detect ports).1 = (ports.find? matchesNist).map mkBench ∧
    ((∀ p ∈ ports, matchesNist p = false) → (auto_detect ports).1 = none) ∧
    (∀ j, PortEvent.opened j ∈ (auto_detect ports).2 →
      PortEvent.closed j ∈ (auto_detect ports).2 ∨
      ∃ p, ports[j]? = some p ∧ matchesNist p = true ∧
        (auto_detect ports).1 = some (mkBench p)) ∧
    (∀ b, (auto_detect ports).1 = some b →
      ∃ j p, ports[j]? = some p ∧ b = mkBench p ∧ b.ser = some ⟨true, p.rx⟩ ∧
        PortEvent.opened j ∈ (auto_detect ports).2 ∧
        PortEvent.closed j ∉ (auto_detect ports).2) := by
  refine ⟨auto_detect_go_fst 0 ports, ?_, ?_, ?_⟩
  · intro hall
    rw [auto_detect, auto_detect_go_fst 0 ports,
      List.find?_eq_none.mpr (fun p hp => by simp [hall p hp])]
    rfl
  · intro j hj
    have h := auto_detect_go_opened_closed 0 ports j hj
    simpa using h
  · intro b hb
    obtain ⟨j, q, _, hget, hbe, ho, hcl⟩ := auto_detect_go_found 0 ports b hb
    exact ⟨j, q, by simpa using hget, hbe, by rw [hbe]; rfl, ho, hcl⟩

/-- Witness for C5 on the three-port scenario `demoPorts` (only the second
port answers the probe correctly): the connection opened for port 0 is closed
or port 0 is the winner, and the returned object is the open connection of a
scanned port that is never closed. -/
theorem auto_detect_correct_witness :
    (PortEvent.closed 0 ∈ (auto_detect demoPorts).2 ∨
      ∃ p, demoPorts[0]? = some p ∧ matchesNist p = true ∧
        (auto_detect demoPorts).1 = some (mkBench p)) ∧
    (∃ j p, demoPorts[j]? = some p ∧
      mkBench ⟨"COM2", true, NIST_CT ++ [0x10, 0x27, 0, 0]⟩ = mkBench p ∧
      (mkBench ⟨"COM2", true, NIST_CT ++ [0x10, 0x27, 0, 0]⟩).ser = some ⟨true, p.rx⟩ ∧
      PortEvent.opened j ∈ (auto_detect demoPorts).2 ∧
      PortEvent.closed j ∉ (auto_detect demoPorts).2) :=
  ⟨(auto_detect_correct demoPorts).2.2.1 0 (by decide),
   (auto_detect_correct demoPorts).2.2.2 _ (by decide)⟩

/-- Peeling one 16-byte slice off the front of the block decomposition. -/
lemma block_slices_succ (l : List Nat) (n : Nat) :
    block_slices l (n + 1) = l.take 16 :: block_slices (l.drop 16) n := by
  unfold block_slices
  rw [List.range_succ_eq_map]
  simp only [List.map_cons, List.map_map, Nat.zero_mul, List.drop_zero]
  congr 1
  apply List.map_congr_left
  intro i _
  simp only [Function.comp, Nat.succ_mul, List.drop_drop]
  rw [Nat.add_comm]

/-- The decomposition of a block-aligned buffer has exactly `n` slices. -/
lemma block_slices_length (l : List Nat) (n : Nat) : (block_slices l n).length = n := by
  simp [block_slices]

/-- Concatenating the 16-byte slices of a block-aligned buffer gives the
buffer back. -/
lemma block_slices_flatten : ∀ (n : Nat) (l : List Nat), l.length = 16 * n →
    (block_slices l n).flatten = l := by
  intro n
  induction n with
  | zero =>
    intro l hl
    have : l = [] := List.length_eq_zero.mp (by omega)
    subst this
    rfl
  | succ n ih =>
    intro l hl
    rw [block_slices_succ]
    simp only [List.flatten_cons]
    rw [ih (l.drop 16) (by rw [List.length_drop, hl]; omega)]
    exact List.take_append_drop 16 l

/-- Every slice of a long-enough buffer is 16 bytes. -/
lemma block_slices_len16 : ∀ (n : Nat) (l : List Nat), 16 * n ≤ l.length →
    ∀ b ∈ block_slices l n, b.length = 16 := by
  intro n
  induction n with
  | zero =>
    intro l _ b hb
    simp [block_slices] at hb
  | succ n ih =>
    intro l hl b hb
    rw [block_slices_succ] at hb
    rcases List.mem_cons.mp hb with h | h
    · subst h
      simp only [List.length_take]
      omega
    · exact ih (l.drop 16) (by rw [List.length_drop]; omega) b h

/-- The concatenation of 16-byte blocks has length `16 ·` the block count. -/
lemma flatten_length_16 (bs : List (List Nat)) (h : ∀ b ∈ bs, b.length = 16) :
    bs.flatten.length = 16 * bs.length := by
  induction bs with
  | nil => rfl
  | cons b rest ih =>
    have hb := h b (by simp)
    have ih2 := ih (fun x hx => h x (by simp [hx]))
    simp only [List.flatten_cons, List.length_append, List.length_cons, hb, ih2]
    ring

/-- Re-slicing the concatenation of 16-byte blocks recovers the blocks. -/
lemma block_slices_of_flatten : ∀ bs : List (List Nat), (∀ b ∈ bs, b.length = 16) →
    block_slices bs.flatten bs.length = bs := by
  intro bs
  induction bs with
  | nil => intro _; rfl
  | cons b rest ih =>
    intro h
    have hb : b.length = 16 := h b (by simp)
    simp only [List.flatten_cons, List.length_cons]
    rw [block_slices_succ]
    congr 1
    · rw [← hb, List.take_left]
    · rw [← hb, List.drop_left]
      exact ih (fun x hx => h x (by simp [hx]))

/-- The padded buffer is block aligned. -/
lemma pad16_mod (buf : List Nat) : (pad16 buf).length % 16 = 0 := by
  unfold pad16
  split
  · next h =>
    simp only [List.length_append, List.length_replicate]
    omega
  · next h => omega

/-- Truncating the padded buffer to the original length recovers the
original buffer. -/
lemma pad16_take (buf : List Nat) : (pad16 buf).take buf.length = buf := by
  unfold pad16
  split
  · exact List.take_left buf _
  · exact List.take_length buf

/-- C6: a buffer already a multiple of 16 bytes long receives zero padding
bytes; and when every block's round trip succeeds with the reference AES
ciphertext for that block, decrypting the accumulated hardware ciphertext
with the same key (block inverse `dec`) and truncating to the original
pre-padding length reconstructs the original buffer exactly. -/
theorem bulk_round_trip (buf : List Nat) (enc dec : List Nat → List Nat)
    (hw : List Nat → Option (List Nat × Nat))
    (henc : ∀ b, b.length = 16 → (enc b).length = 16)
    (hdec : ∀ b, b.length = 16 → dec (enc b) = b)
    (hhw : ∀ b, b.length = 16 → ∃ c, hw b = some (enc b, c)) :
    (buf.length % 16 = 0 → pad16 buf = buf) ∧
    (ecb_apply dec (hw_bulk_encrypt hw (pad16 buf))).take buf.length = buf := by
  constructor
  · intro h
    simp [pad16, h]
  · set P := pad16 buf with hP
    have hmod : P.length % 16 = 0 := pad16_mod buf
    set n := P.length / 16 with hn
    have hPlen : P.length = 16 * n := by omega
    have hblocks : ∀ b ∈ block_slices P n, b.length = 16 :=
      block_slices_len16 n P (le_of_eq hPlen.symm)
    have hmap : (block_slices P n).map (fun block =>
        match hw block with
        | none => List.replicate 16 0
        | some (ct, _) => ct) = (block_slices P n).map enc := by
      apply List.map_congr_left
      intro b hb
      obtain ⟨c, hc⟩ := hhw b (hblocks b hb)
      rw [hc]
    have hbulk : hw_bulk_encrypt hw P = ((block_slices P n).map enc).flatten := by
      rw [hw_bulk_encrypt, ← hn, hmap]
    have hctlen : ∀ b ∈ (block_slices P n).map enc, b.length = 16 := by
      intro b hb
      obtain ⟨a, ha, rfl⟩ := List.mem_map.mp hb
      exact henc a (hblocks a ha)
    have hCL : (((block_slices P n).map enc).flatten).length = 16 * n := by
      rw [flatten_length_16 _ hctlen, List.length_map, block_slices_length]
    have hslices : block_slices (((block_slices P n).map enc).flatten)
        ((((block_slices P n).map enc).flatten).length / 16) = (block_slices P n).map enc := by
      rw [hCL, Nat.mul_div_cancel_left n (by norm_num)]
      have h2 := block_slices_of_flatten ((block_slices P n).map enc) hctlen
      rwa [List.length_map, block_slices_length] at h2
    have hdecmap : ((block_slices P n).map enc).map dec = block_slices P n := by
      rw [List.map_map]
      have h3 : (block_slices P n).map (dec ∘ enc) = (block_slices P n).map id := by
        apply List.map_congr_left
        intro b hb
        simp [Function.comp, hdec b (hblocks b hb)]
      rw [h3, List.map_id]
    have hfinal : ecb_apply dec (hw_bulk_encrypt hw P) = P := by
      rw [hbulk]
      simp only [ecb_apply]
      rw [hslices, hdecmap, block_slices_flatten n P hPlen]
    rw [hfinal, hP]
    exact pad16_take buf

/-- Witness for C6: the reversal block cipher on the concrete 20-byte buffer
`[0, ..., 19]` (padded to 32 bytes) round-trips back to the buffer. -/
theorem bulk_round_trip_witness :
    (bufEx.length % 16 = 0 → pad16 bufEx = bufEx) ∧
    (ecb_apply (fun b => b.reverse)
      (hw_bulk_encrypt (fun b => some (b.reverse, 42)) (pad16 bufEx))).take bufEx.length =
      bufEx :=
  bulk_round_trip bufEx (fun b => b.reverse) (fun b => b.reverse)
    (fun b => some (b.reverse, 42))
    (fun b h => by simp [h])
    (fun b _ => List.reverse_reverse b)
    (fun b _ => ⟨42, rfl⟩)

/-- C10: the guarded denominators never divide by zero — `run_random_tests`
over zero iterations reports `passed = failed = 0` and `pass_rate = 0`, and
`run_throughput_test` with no successful block reports `avg_cycles = 0`. -/
theorem guarded_denominators :
    (run_random_tests []).passed = 0 ∧ (run_random_tests []).failed = 0 ∧
    (run_random_tests []).pass_rate = 0 ∧
    (∀ results : List (Option Nat), (∀ r ∈ results, r = none) →
      (run_throughput_test results).avg_cycles = 0) := by
  refine ⟨rfl, rfl, rfl, ?_⟩
  intro results h
  simp only [run_throughput_test, throughput_foldl_none results h (0, 0)]
  rfl

/-- Witness for C10: a throughput run whose two round trips both failed
reports `avg_cycles = 0`. -/
theorem guarded_denominators_witness :
    (run_throughput_test [none, none]).avg_cycles = 0 ∧ (run_random_tests []).pass_rate = 0 :=
  ⟨guarded_denominators.2.2.2 [none, none] (by decide), guarded_denominators.2.2.1⟩

end AESEval
